import Mathlib

/-!
Verification of the "Hide" steganography tool (Go) against its
natural-language specification.

The Go sources are shallowly embedded: machine integers become `Nat`/`Int`
(Go `uint8` values are `Nat` values below 256, with wrap-around written out
explicitly where the source relies on it), slices become lists or functions,
fallible functions return `Except`/`Option`, and in-place mutation becomes
explicit state passing.  Floating-point computations (the DCT transform,
variance and adaptive scale) are abstracted as function parameters: the
theorems about the DCT embedder hold for every choice of those functions,
hence in particular for the float64 ones in the source.  The Go standard
library pseudo-random generator behind rand.Shuffle is abstracted as a
function from the shuffle step to the drawn index, which covers every
possible draw sequence.
-/

namespace Hide

/-! ## Bit utilities (pkg/stego/utils.go) -/

/-- Embedding of utils.go getBit: bit `index` (0 = LSB) of a non-negative int. -/
def getBit (num index : ℕ) : ℕ :=
  if num &&& (1 <<< index) = 0 then 0 else 1

/-- Embedding of utils.go setBit. -/
def setBit (num index : ℕ) : ℕ :=
  num ||| (1 <<< index)

/-- Embedding of utils.go clearBit on a non-negative int: xor away the bit if set. -/
def clearBit (num index : ℕ) : ℕ :=
  num ^^^ (num &&& (1 <<< index))

/-- Embedding of utils.go getBitUint8.  The Go mask is uint8(1 << index),
so the shifted constant wraps modulo 256 before masking. -/
def getBitUint8 (num index : ℕ) : ℕ :=
  if num &&& ((1 <<< index) % 256) = 0 then 0 else 1

/-- Embedding of utils.go setBitUint8. -/
def setBitUint8 (num index : ℕ) : ℕ :=
  num ||| ((1 <<< index) % 256)

/-- Embedding of utils.go clearBitUint8: the Go mask uint8(^(1 << index))
equals 255 - (1 << index) % 256. -/
def clearBitUint8 (num index : ℕ) : ℕ :=
  num &&& (255 - ((1 <<< index) % 256))

/-- Embedding of utils.go numBitsAvailable. -/
def numBitsAvailable (width height channelSize numBitsToUsePerChannel : ℕ) : ℕ :=
  if width = 0 ∨ height = 0 ∨ numBitsToUsePerChannel < 1 then 0
  else width * height * channelSize * numBitsToUsePerChannel

/-- Embedding of utils.go matchBitUint8 (the three-argument variant).
The call rand.Intn(2) == 0 is modelled by the boolean `addOne`, quantifying
over every possible random outcome.  `num` is a uint8 channel value. -/
def matchBitUint8 (num index bit : ℕ) (addOne : Bool) : ℕ :=
  if index ≠ 0 then
    if bit = 0 then clearBitUint8 num index else setBitUint8 num index
  else
    let val : ℤ := num
    let currentBit := val % 2
    if currentBit = bit then num
    else
      let val' : ℤ := if addOne then val + 1 else val - 1
      let clamped : ℤ := if val' > 255 then 254 else if val' < 0 then 1 else val'
      clamped.toNat

/-! ## Capacity (GetCapacity in pkg/stego/stego.go, numBitsAvailable in utils.go) -/

/-- Embedding of GetCapacity.  The claim restricts arguments to non-negative
values, so Go int becomes ℕ here (Go integer division on non-negative
operands agrees with ℕ division). -/
def GetCapacity (width height channels bits : ℕ) (strategy : String) : ℕ :=
  if strategy = "dct" then
    let blocksW := width / 8
    let blocksH := height / 8
    if blocksH ≤ 1 then 0 else blocksW * (blocksH - 1)
  else
    numBitsAvailable width height channels bits

/-! ## Pixel iterators (pkg/stego/stepper.go)

The Go interface pixelIterator with its three implementations becomes a
closed sum.  The random iterator's indices slice is embedded as the
function sending a cursor position to the pixel index stored there; the
Fisher-Yates shuffle performed by rand.Shuffle becomes an explicit
composition of transpositions. -/

/-- The three traversal policies of stepper.go as one inductive type.
`linear` carries (width, height, x, y); `random` carries the slice length,
the width, the shuffled indices (as a function) and the cursor; `dct`
carries (width, height, blockX, blockY, blocksW). -/
inductive PixelIterator where
  | linear (width height x y : ℕ)
  | random (count width : ℕ) (indices : ℕ → ℕ) (current : ℕ)
  | dct (width height blockX blockY blocksW : ℕ)

/-- Embedding of the three next() methods of stepper.go.  Returns the yielded
pixel (or block) coordinates together with the advanced iterator, or none
when the iterator is exhausted. -/
def PixelIterator.next : PixelIterator → Option ((ℕ × ℕ) × PixelIterator)
  | .linear w h x y =>
      if h ≤ y then none
      else
        let pos := (x, y)
        if w ≤ x + 1 then some (pos, .linear w h 0 (y + 1))
        else some (pos, .linear w h (x + 1) y)
  | .random count w indices cur =>
      if count ≤ cur then none
      else some ((indices cur % w, indices cur / w), .random count w indices (cur + 1))
  | .dct w h blockX blockY blocksW =>
      if h < blockY * 8 + 8 then none
      else
        let pos := (blockX, blockY)
        if blocksW ≤ blockX + 1 then some (pos, .dct w h 0 (blockY + 1) blocksW)
        else some (pos, .dct w h (blockX + 1) blockY blocksW)

/-- Embedding of newLinearIterator. -/
def newLinearIterator (width height : ℕ) : PixelIterator :=
  .linear width height 0 0

/-- Embedding of newDctIterator: blockY starts at 1 to reserve the first
block row for the header. -/
def newDctIterator (width height : ℕ) : PixelIterator :=
  .dct width height 0 1 (width / 8)

/-- The swaps performed by rand.Shuffle(n, swap) in newRandomIterator,
relative to the shuffled suffix: Go iterates i = n-1, n-2, ..., 1 and swaps
positions i and j where j is drawn uniformly from [0, i].  The abstract
draw function `rnd` (standing for the seeded math/rand stream) is reduced
into range with % (i+1); every realizable draw sequence is of this shape. -/
def shuffleSwapList (n : ℕ) (rnd : ℕ → ℕ) : List (ℕ × ℕ) :=
  ((List.range n).reverse.dropLast).map (fun i => (i, rnd i % (i + 1)))

/-- The indices array of newRandomIterator after the shuffle of its suffix,
as a permutation of ℕ.  Starting from the identity array, each Go swap of
cells a and b turns the array-as-function f into f ∘ (swap a b); the cells
touched are 35 + i and 35 + j for (i, j) in the swap list. -/
def applySwaps (l : List (ℕ × ℕ)) : Equiv.Perm ℕ :=
  l.foldl (fun acc p => (Equiv.swap (35 + p.1) (35 + p.2)).trans acc) (Equiv.refl ℕ)

/-- The shuffled indices array of newRandomIterator: identity when
count ≤ 35 (the source only shuffles when count > 35), otherwise the
suffix shuffle of rand.Shuffle. -/
def randomPerm (count : ℕ) (rnd : ℕ → ℕ) : Equiv.Perm ℕ :=
  if 35 < count then applySwaps (shuffleSwapList (count - 35) rnd) else Equiv.refl ℕ

/-- Embedding of newRandomIterator: indices = [0, ..., count) with the
suffix from position 35 shuffled (only when count > 35). -/
def newRandomIterator (width height : ℕ) (rnd : ℕ → ℕ) : PixelIterator :=
  .random (width * height) width (fun k => randomPerm (width * height) rnd k) 0

/-- Collect the first n outputs of an iterator (stopping early at exhaustion). -/
def iterRun : ℕ → PixelIterator → List (ℕ × ℕ)
  | 0, _ => []
  | n + 1, it =>
    match it.next with
    | none => []
    | some (p, it') => p :: iterRun n it'

/-- Advance an iterator n times (staying put once exhausted). -/
def iterNexts : ℕ → PixelIterator → PixelIterator
  | 0, it => it
  | n + 1, it =>
    match it.next with
    | none => it
    | some (_, it') => iterNexts n it'

/-! ## Stepper (pkg/stego/stepper.go) -/

/-- Embedding of the ImageStepper struct. -/
structure ImageStepper where
  x : ℕ
  y : ℕ
  channel : ℕ
  numBitsWritten : ℕ
  bitIndexOffset : ℕ
  numBitsToUsePerChannel : ℕ
  width : ℕ
  height : ℕ
  channelSize : ℕ
  iterator : PixelIterator

/-- Embedding of makeImageStepper: pick the iterator from the strategy and
seed, then prime it so x and y reflect the first pixel.  The abstract draw
function `rnd` stands for the math/rand stream seeded with `seed`. -/
def makeImageStepper (numBitsToUsePerChannel width height channelSize : ℕ)
    (seed : ℤ) (strategy : String) (rnd : ℕ → ℕ) : Except String ImageStepper :=
  let it : PixelIterator :=
    if strategy = "dct" then newDctIterator width height
    else if seed ≠ 0 then newRandomIterator width height rnd
    else newLinearIterator width height
  match it.next with
  | none => .error "image too small for selected strategy"
  | some ((x, y), it') =>
      .ok { x := x, y := y, channel := 0, numBitsWritten := 0, bitIndexOffset := 0,
            numBitsToUsePerChannel := numBitsToUsePerChannel, width := width,
            height := height, channelSize := channelSize, iterator := it' }

/-- Embedding of ImageStepper.step(): advance one bit, carrying bitIndexOffset
into channel and channel into a fresh iterator pixel. -/
def ImageStepper.step (s : ImageStepper) : Except String ImageStepper :=
  let bo' := s.bitIndexOffset + 1
  let bo2 := if s.numBitsToUsePerChannel ≤ bo' then 0 else bo'
  let ch2 := if s.numBitsToUsePerChannel ≤ bo' then s.channel + 1 else s.channel
  if s.channelSize ≤ ch2 then
    match s.iterator.next with
    | none => .error "iterator exhausted: stepped past the last available pixel"
    | some ((x, y), it') =>
        .ok { s with numBitsWritten := s.numBitsWritten + 1, bitIndexOffset := bo2,
                     channel := 0, x := x, y := y, iterator := it' }
  else
    .ok { s with numBitsWritten := s.numBitsWritten + 1, bitIndexOffset := bo2,
                 channel := ch2 }

/-- Embedding of ImageStepper.skipPixel(): one iterator step updating x and y.
The source leaves channel and bitIndexOffset untouched. -/
def ImageStepper.skipPixel (s : ImageStepper) : Except String ImageStepper :=
  match s.iterator.next with
  | none => .error "iterator exhausted: cannot skip pixel"
  | some ((x, y), it') => .ok { s with x := x, y := y, iterator := it' }

/-! ## Images and the DCT block embedder (pkg/stego/stego.go)

An in-memory NRGBA image is embedded as a function from pixel coordinates
to channel quadruples.  embedDCTBlock and decodeDCTBlock only ever touch
the Blue channel of one 8x8 block; their float64 core (variance, adaptive
scale, forward/inverse DCT, rounding) is abstracted into function
parameters, so every theorem below holds for the concrete float64
functions of the source as well. -/

/-- One NRGBA pixel: channel order R, G, B, A as in colorToChannels. -/
structure RGBA where
  r : ℕ
  g : ℕ
  b : ℕ
  a : ℕ
deriving DecidableEq

/-- An image as a total map from (x, y) to its pixel. -/
abbrev Image := ℕ × ℕ → RGBA

/-- The 64 Blue-channel samples of a block: position (bx, bY) inside the
block reads pixel (blockX*8 + bx, blockY*8 + bY), as in the extraction
loops of embedDCTBlock and decodeDCTBlock. -/
def blockBlues (img : Image) (blockX blockY : ℕ) : Fin 8 → Fin 8 → ℕ :=
  fun bx bY => (img (blockX * 8 + bx.val, blockY * 8 + bY.val)).b

/-- Embedding of decodeDCTBlock.  The parameter `decodeBit` abstracts the
float64 pipeline variance → adaptive scale → DCT → coefficient (1,2) →
rounded quotient parity; the source's decode is a pure function of the 64
Blue samples of the block, which is all this definition exposes to it. -/
def decodeDCTBlock (decodeBit : (Fin 8 → Fin 8 → ℕ) → ℕ)
    (img : Image) (blockX blockY : ℕ) : ℕ :=
  decodeBit (blockBlues img blockX blockY)

/-- Write a full set of Blue samples into the 8x8 block at (blockX, blockY),
leaving R, G, A and every pixel outside the block unchanged (the write-back
loops of embedDCTBlock assign only pix[2]). -/
def writeBlockBlues (img : Image) (blockX blockY : ℕ)
    (f : Fin 8 → Fin 8 → ℕ) : Image :=
  fun p =>
    if p.1 / 8 = blockX ∧ p.2 / 8 = blockY then
      let px := img p
      { px with b := f ⟨p.1 % 8, Nat.mod_lt _ (by norm_num)⟩
                       ⟨p.2 % 8, Nat.mod_lt _ (by norm_num)⟩ }
    else img p

/-- The quantization candidates tried by embedDCTBlock, in source order:
for i = 0..25 the encoder tries originalQ + 2i and, when i > 0, also
originalQ - 2i. -/
def dctCandidates (originalQ : ℤ) : List ℤ :=
  (List.range 26).flatMap
    (fun i => if i = 0 then [originalQ] else [originalQ + 2 * i, originalQ - 2 * i])

/-- The retry loop of embedDCTBlock over a list of candidates.  For each
candidate q the encoder writes the Blue samples `newBlues q` (abstracting
q·scale into coefficient (1,2), inverse DCT, clip to [0,255]), then decodes
the block in place; on a mismatch it restores the original Blue samples
before the next attempt.  The result is the image after the call together
with a success flag (Go: nil error vs ErrDctEmbed). -/
def embedDCTAttempts (decodeBit : (Fin 8 → Fin 8 → ℕ) → ℕ)
    (newBlues : ℤ → Fin 8 → Fin 8 → ℕ) (origBlues : Fin 8 → Fin 8 → ℕ)
    (blockX blockY bit : ℕ) : Image → List ℤ → Image × Bool
  | img, [] => (img, false)
  | img, q :: rest =>
    let img1 := writeBlockBlues img blockX blockY (newBlues q)
    if decodeDCTBlock decodeBit img1 blockX blockY = bit then (img1, true)
    else
      embedDCTAttempts decodeBit newBlues origBlues blockX blockY bit
        (writeBlockBlues img1 blockX blockY origBlues) rest

/-- Embedding of embedDCTBlock: capture the original Blue samples, then run
the candidate loop.  `originalQ` abstracts the parity-adjusted rounded
quotient round(dct[1][2]/scale) computed from the original block. -/
def embedDCTBlock (decodeBit : (Fin 8 → Fin 8 → ℕ) → ℕ)
    (newBlues : ℤ → Fin 8 → Fin 8 → ℕ) (originalQ : ℤ)
    (img : Image) (blockX blockY bit : ℕ) : Image × Bool :=
  embedDCTAttempts decodeBit newBlues (blockBlues img blockX blockY)
    blockX blockY bit img (dctCandidates originalQ)

/-! ## Analysis (pkg/stego/analysis.go)

All quantities the Analyze loop accumulates are integers far below 2^53
(squared channel differences are at most 65025 per channel), so its
float64 arithmetic is exact up to the two final operations; the model
therefore uses ℤ for the accumulator, ℚ for the mean and EReal for the
PSNR (Go yields +Inf via division by 0.0 when MSE = 0). -/

/-- Squared R/G/B difference of two pixels; alpha is excluded, as in the
i < 3 loop of Analyze. -/
def pixelSqErr (p q : RGBA) : ℤ :=
  ((p.r : ℤ) - q.r) ^ 2 + ((p.g : ℤ) - q.g) ^ 2 + ((p.b : ℤ) - q.b) ^ 2

/-- Sum of absolute R/G/B differences of two pixels (the diffSum of Analyze). -/
def pixelAbsDiff (p q : RGBA) : ℕ :=
  ((p.r : ℤ) - q.r).natAbs + ((p.g : ℤ) - q.g).natAbs + ((p.b : ℤ) - q.b).natAbs

/-- The isModified flag of Analyze: some R/G/B channel differs. -/
def pixelModified (p q : RGBA) : Bool :=
  decide (p.r ≠ q.r ∨ p.g ≠ q.g ∨ p.b ≠ q.b)

/-- The sumSquaredError accumulated by the x/y loops of Analyze. -/
def analyzeSSE (img1 img2 : Image) (width height : ℕ) : ℤ :=
  (List.range width).foldl
    (fun acc x =>
      (List.range height).foldl
        (fun acc2 y => acc2 + pixelSqErr (img1 (x, y)) (img2 (x, y))) acc)
    0

/-- The MSE reported by Analyze: sumSquaredError / (W·H·3). -/
def analyzeMSE (img1 img2 : Image) (width height : ℕ) : ℚ :=
  (analyzeSSE img1 img2 width height : ℚ) / (width * height * 3)

/-- The PSNR reported by Analyze: 10·log10(255²/MSE); Go's float64 division
by an MSE of 0.0 yields +Inf, hence the top value. -/
noncomputable def analyzePSNR (img1 img2 : Image) (width height : ℕ) : EReal :=
  if analyzeMSE img1 img2 width height = 0 then ⊤
  else ((10 * Real.logb 10 ((255 * 255 : ℝ) /
          (analyzeMSE img1 img2 width height : ℝ))) : ℝ)

/-- One heatmap pixel of Analyze: opaque black when no R/G/B channel
changed, otherwise (intensity, 255 - intensity, 0, 255) with
intensity = min(255, diffSum·50).  All quantities are small integers, so
the float64 math.Min and the uint8 conversion are exact. -/
def heatmapPixel (p q : RGBA) : RGBA :=
  if pixelModified p q then
    let intensity := min 255 (pixelAbsDiff p q * 50)
    ⟨intensity, 255 - intensity, 0, 255⟩
  else ⟨0, 0, 0, 255⟩

/-- The heatmap image produced by Analyze. -/
def analyzeHeatmap (img1 img2 : Image) : Image :=
  fun p => heatmapPixel (img1 p) (img2 p)

/-! ## Reveal's body-length validation (Reveal in pkg/stego/stego.go) -/

/-- Embedding of the validation Reveal performs on the decoded body bit
count: reject when numMessageBits < 0 or greater than the capacity, then
reject when it is not a multiple of 8; otherwise proceed.  Returns the
error message, or none when validation passes. -/
def revealLengthValidation (numMessageBits capacity : ℤ) : Option String :=
  if numMessageBits < 0 ∨ capacity < numMessageBits then
    some "invalid header: message length exceeds capacity"
  else if numMessageBits % 8 ≠ 0 then
    some "invalid header: message length is not a multiple of 8"
  else none

/-! ## Shared helper lemmas -/

/-- numBitsAvailable is the plain product: every guard case forces 0 anyway. -/
theorem numBitsAvailable_eq (w h ch b : ℕ) :
    numBitsAvailable w h ch b = w * h * ch * b := by
  unfold numBitsAvailable
  split
  · rename_i hc
    rcases hc with h0 | h0 | h0
    · simp [h0]
    · simp [h0]
    · have : b = 0 := by omega
      simp [this]
  · rfl

/-- GetCapacity with a non-dct strategy string is numBitsAvailable. -/
theorem getCapacity_lsb (w h ch b : ℕ) :
    GetCapacity w h ch b "lsb" = w * h * ch * b := by
  rw [GetCapacity, if_neg (by decide), numBitsAvailable_eq]

/-! ## C7: capacity monotonicity and the DCT capacity formula -/

/-- C7: GetCapacity(W, H, ch, b, lsb) is non-decreasing in each of W, H, ch
and b separately (over non-negative values), the dct capacity equals
(W/8)·(H/8 − 1) in integer arithmetic (0 whenever H/8 ≤ 1), and
GetCapacity(100, 100, 3, 1, dct) = 132. -/
theorem getCapacity_monotone_and_dct (w w' h h' ch ch' b b' : ℕ)
    (hw : w ≤ w') (hh : h ≤ h') (hch : ch ≤ ch') (hb : b ≤ b') :
    (GetCapacity w h ch b "lsb" ≤ GetCapacity w' h ch b "lsb") ∧
    (GetCapacity w h ch b "lsb" ≤ GetCapacity w h' ch b "lsb") ∧
    (GetCapacity w h ch b "lsb" ≤ GetCapacity w h ch' b "lsb") ∧
    (GetCapacity w h ch b "lsb" ≤ GetCapacity w h ch b' "lsb") ∧
    (GetCapacity w h ch b "dct" = (w / 8) * (h / 8 - 1)) ∧
    (h / 8 ≤ 1 → GetCapacity w h ch b "dct" = 0) ∧
    (GetCapacity 100 100 3 1 "dct" = 132) := by
  refine ⟨?_, ?_, ?_, ?_, ?_, ?_, by decide⟩
  · simp only [getCapacity_lsb]
    exact Nat.mul_le_mul_right _ (Nat.mul_le_mul_right _ (Nat.mul_le_mul_right _ hw))
  · simp only [getCapacity_lsb]
    exact Nat.mul_le_mul_right _ (Nat.mul_le_mul_right _ (Nat.mul_le_mul_left _ hh))
  · simp only [getCapacity_lsb]
    exact Nat.mul_le_mul_right _ (Nat.mul_le_mul_left _ hch)
  · simp only [getCapacity_lsb]
    exact Nat.mul_le_mul_left _ hb
  · rw [GetCapacity, if_pos rfl]
    by_cases hle : h / 8 ≤ 1
    · have h0 : h / 8 - 1 = 0 := by omega
      simp [hle, h0]
    · simp [hle]
  · intro hle
    rw [GetCapacity, if_pos rfl]
    simp [hle]

/-- C7 witness: the monotonicity and formula theorem applied at concrete
dimensions. -/
theorem getCapacity_monotone_and_dct_witness :
    GetCapacity 10 20 3 2 "lsb" ≤ GetCapacity 16 20 3 2 "lsb" ∧
    GetCapacity 100 100 3 1 "dct" = 132 :=
  ⟨(getCapacity_monotone_and_dct 10 16 20 21 3 4 2 3 (by decide) (by decide)
      (by decide) (by decide)).1,
   (getCapacity_monotone_and_dct 100 100 100 100 3 3 1 1 (le_refl _) (le_refl _)
      (le_refl _) (le_refl _)).2.2.2.2.2.2⟩

/-! ## C4: Reveal's validation of the decoded body bit count -/

/-- C4 counterexample: a decoded body bit count of 0 passes Reveal's
validation (the source only rejects counts that are negative, above
capacity, or not multiples of 8), although the claim says 0 must be
rejected. -/
theorem revealLength_zero_passes_validation :
    revealLengthValidation 0 132 = none ∧ ¬(0 < (0 : ℤ)) := by
  constructor
  · rfl
  · decide

/-- C4 amended: Reveal's body-length validation passes exactly when the
decoded count is non-negative, at most the capacity, and divisible by 8;
in particular a count of 0 is accepted (Reveal then reads no chunks and
yields an empty payload). -/
theorem revealLengthValidation_iff (bits cap : ℤ) :
    revealLengthValidation bits cap = none ↔
      0 ≤ bits ∧ bits ≤ cap ∧ bits % 8 = 0 := by
  unfold revealLengthValidation
  split
  · rename_i hrej
    simp only [reduceCtorEq, false_iff]
    omega
  · split
    · rename_i hok hmod
      simp only [reduceCtorEq, false_iff]
      omega
    · rename_i hok hmod
      simp only [true_iff]
      omega

/-- C4 witness: the characterization applied to a concrete accepted count. -/
theorem revealLengthValidation_iff_witness :
    revealLengthValidation 16 132 = none :=
  (revealLengthValidation_iff 16 132).mpr (by decide)

/-! ## C9: LSB matching -/

/-- Evaluation of matchBitUint8 at bit offset 0, with the lets spelled out. -/
theorem matchBitUint8_zero_eval (v b : ℕ) (c : Bool) :
    matchBitUint8 v 0 b c =
      if (v : ℤ) % 2 = (b : ℤ) then v
      else
        (if ((if c then (v : ℤ) + 1 else (v : ℤ) - 1) > 255) then (254 : ℤ)
         else if ((if c then (v : ℤ) + 1 else (v : ℤ) - 1) < 0) then 1
         else (if c then (v : ℤ) + 1 else (v : ℤ) - 1)).toNat := by
  unfold matchBitUint8
  norm_num

/-- C9: for every channel value v < 256, bit b ∈ {0, 1} and random outcome,
LSB matching at bit offset 0 leaves v unchanged when its LSB already equals
b, otherwise writes v+1 or v−1 according to the random draw, saturating
256 to 254 and −1 to 1; the written value always has LSB b, differs from v
by at most 1 and stays a byte; for a non-zero bit offset the function falls
back to plain bit replacement. -/
theorem matchBitUint8_spec (v b : ℕ) (c : Bool) (hv : v < 256) (hb : b < 2) :
    (v % 2 = b → matchBitUint8 v 0 b c = v) ∧
    (v % 2 ≠ b → c = true → v < 255 → matchBitUint8 v 0 b c = v + 1) ∧
    (v % 2 ≠ b → c = false → 0 < v → matchBitUint8 v 0 b c = v - 1) ∧
    (v = 255 → b = 0 → c = true → matchBitUint8 v 0 b c = 254) ∧
    (v = 0 → b = 1 → c = false → matchBitUint8 v 0 b c = 1) ∧
    (matchBitUint8 v 0 b c % 2 = b) ∧
    (matchBitUint8 v 0 b c ≤ v + 1 ∧ v ≤ matchBitUint8 v 0 b c + 1) ∧
    (matchBitUint8 v 0 b c < 256) ∧
    (∀ i, i ≠ 0 → matchBitUint8 v i b c =
      if b = 0 then clearBitUint8 v i else setBitUint8 v i) := by
  refine ⟨?_, ?_, ?_, ?_, ?_, ?_, ?_, ?_, ?_⟩
  · intro hvb
    rw [matchBitUint8_zero_eval, if_pos (by omega)]
  · intro hvb hc hlt
    subst hc
    rw [matchBitUint8_zero_eval]
    norm_num
    split_ifs with h1 h2 h3 <;> omega
  · intro hvb hc hpos
    subst hc
    rw [matchBitUint8_zero_eval]
    norm_num
    split_ifs with h1 h2 h3 <;> omega
  · intro h255 hb0 hc
    subst h255; subst hb0; subst hc
    decide
  · intro h0 hb1 hc
    subst h0; subst hb1; subst hc
    decide
  · rw [matchBitUint8_zero_eval]
    split_ifs with h1 h2 h3 h4 h5 h6 <;> omega
  · rw [matchBitUint8_zero_eval]
    split_ifs with h1 h2 h3 h4 h5 h6 <;> omega
  · rw [matchBitUint8_zero_eval]
    split_ifs with h1 h2 h3 h4 h5 h6 <;> omega
  · intro i hi
    simp [matchBitUint8, hi]

/-- C9 witness: the LSB-matching theorem applied at concrete inputs. -/
theorem matchBitUint8_spec_witness :
    matchBitUint8 6 0 0 true = 6 ∧ matchBitUint8 6 0 1 true = 7 ∧
    matchBitUint8 255 0 0 true = 254 ∧ matchBitUint8 0 0 1 false = 1 :=
  ⟨(matchBitUint8_spec 6 0 true (by decide) (by decide)).1 (by decide),
   (matchBitUint8_spec 6 1 true (by decide) (by decide)).2.1 (by decide) rfl (by decide),
   (matchBitUint8_spec 255 0 true (by decide) (by decide)).2.2.2.1 rfl rfl rfl,
   (matchBitUint8_spec 0 1 false (by decide) (by decide)).2.2.2.2.1 rfl rfl rfl⟩

/-! ## C5: stepper cursor arithmetic -/

/-- C5 counterexample: after one step() on a 1-bit-per-channel stepper the
channel cursor is 1; a subsequent skipPixel() succeeds but the channel
cursor is still 1, not the 0 the claim's "resets channel and bitOffset to
0" prescribes. -/
theorem skipPixel_no_reset_counterexample :
    (((makeImageStepper 1 4 4 3 0 "lsb" (fun k => k)).bind ImageStepper.step).bind
        ImageStepper.skipPixel).map (fun t => (t.channel, t.bitIndexOffset)) =
      .ok (1, 0) ∧ ((1 : ℕ), (0 : ℕ)) ≠ ((0 : ℕ), (0 : ℕ)) := by
  exact ⟨rfl, by decide⟩

/-- C5 amended: step() advances one bit — incrementing bitIndexOffset,
carrying into channel when it reaches numBitsToUsePerChannel, carrying into
a fresh iterator pixel when channel reaches channelSize, and failing with
the iterator-exhausted error once the iterator is past its end — while
skipPixel() advances the underlying iterator by exactly one pixel, updating
only x, y and the iterator and leaving the channel and bitIndexOffset
cursors unchanged. -/
theorem stepper_step_skipPixel_spec (s : ImageStepper)
    (hch : s.channel < s.channelSize) :
    (s.bitIndexOffset + 1 < s.numBitsToUsePerChannel →
       s.step = .ok { s with numBitsWritten := s.numBitsWritten + 1,
                             bitIndexOffset := s.bitIndexOffset + 1 }) ∧
    (s.numBitsToUsePerChannel ≤ s.bitIndexOffset + 1 → s.channel + 1 < s.channelSize →
       s.step = .ok { s with numBitsWritten := s.numBitsWritten + 1,
                             bitIndexOffset := 0, channel := s.channel + 1 }) ∧
    (s.numBitsToUsePerChannel ≤ s.bitIndexOffset + 1 → s.channelSize ≤ s.channel + 1 →
       ∀ x y it', s.iterator.next = some ((x, y), it') →
         s.step = .ok { s with numBitsWritten := s.numBitsWritten + 1,
                               bitIndexOffset := 0, channel := 0,
                               x := x, y := y, iterator := it' }) ∧
    (s.numBitsToUsePerChannel ≤ s.bitIndexOffset + 1 → s.channelSize ≤ s.channel + 1 →
       s.iterator.next = none →
         s.step = .error "iterator exhausted: stepped past the last available pixel") ∧
    (∀ x y it', s.iterator.next = some ((x, y), it') →
       s.skipPixel = .ok { s with x := x, y := y, iterator := it' } ∧
       ({ s with x := x, y := y, iterator := it' } : ImageStepper).channel = s.channel ∧
       ({ s with x := x, y := y, iterator := it' } : ImageStepper).bitIndexOffset
         = s.bitIndexOffset) ∧
    (s.iterator.next = none →
       s.skipPixel = .error "iterator exhausted: cannot skip pixel") := by
  refine ⟨?_, ?_, ?_, ?_, ?_, ?_⟩
  · intro h1
    have hno : ¬ s.numBitsToUsePerChannel ≤ s.bitIndexOffset + 1 := by omega
    have hch' : ¬ s.channelSize ≤ s.channel := by omega
    simp only [ImageStepper.step, if_neg hno, if_neg hch']
  · intro h1 h2
    have hch' : ¬ s.channelSize ≤ s.channel + 1 := by omega
    simp only [ImageStepper.step, if_pos h1, if_neg hch']
  · intro h1 h2 x y it' hnext
    simp only [ImageStepper.step, if_pos h1, if_pos h2, hnext]
  · intro h1 h2 hnext
    simp only [ImageStepper.step, if_pos h1, if_pos h2, hnext]
  · intro x y it' hnext
    refine ⟨?_, rfl, rfl⟩
    simp only [ImageStepper.skipPixel]
    rw [hnext]
  · intro hnext
    simp only [ImageStepper.skipPixel]
    rw [hnext]

/-- C5 witness: the amended stepper theorem applied to a concrete stepper. -/
theorem stepper_step_skipPixel_spec_witness :
    ({ x := 0, y := 0, channel := 0, numBitsWritten := 0, bitIndexOffset := 0,
       numBitsToUsePerChannel := 2, width := 4, height := 4, channelSize := 3,
       iterator := .linear 4 4 1 0 } : ImageStepper).step =
      .ok { x := 0, y := 0, channel := 0, numBitsWritten := 1, bitIndexOffset := 1,
            numBitsToUsePerChannel := 2, width := 4, height := 4, channelSize := 3,
            iterator := .linear 4 4 1 0 } :=
  (stepper_step_skipPixel_spec _ (by decide)).1 (by decide)

/-! ## DCT block lemmas -/

/-- Pixels outside the addressed block are untouched by a block write. -/
theorem writeBlockBlues_outside (img : Image) (bX bY : ℕ) (f : Fin 8 → Fin 8 → ℕ)
    (p : ℕ × ℕ) (hp : ¬(p.1 / 8 = bX ∧ p.2 / 8 = bY)) :
    writeBlockBlues img bX bY f p = img p := by
  simp [writeBlockBlues, hp]

/-- A block write never changes the R, G or A channel of any pixel. -/
theorem writeBlockBlues_rga (img : Image) (bX bY : ℕ) (f : Fin 8 → Fin 8 → ℕ)
    (p : ℕ × ℕ) :
    (writeBlockBlues img bX bY f p).r = (img p).r ∧
    (writeBlockBlues img bX bY f p).g = (img p).g ∧
    (writeBlockBlues img bX bY f p).a = (img p).a := by
  unfold writeBlockBlues
  split <;> simp

/-- Reading the block back after a block write returns the written samples. -/
theorem blockBlues_write (img : Image) (bX bY : ℕ) (f : Fin 8 → Fin 8 → ℕ) :
    blockBlues (writeBlockBlues img bX bY f) bX bY = f := by
  funext bx bY'
  have hbx := bx.isLt
  have hbY := bY'.isLt
  have h1 : (bX * 8 + bx.val) / 8 = bX := by omega
  have h2 : (bY * 8 + bY'.val) / 8 = bY := by omega
  have h3 : (bX * 8 + bx.val) % 8 = bx.val := by omega
  have h4 : (bY * 8 + bY'.val) % 8 = bY'.val := by omega
  simp [blockBlues, writeBlockBlues, h1, h2, h3, h4]

/-- Writing the original Blue samples back cancels a block write: this is
the restoration embedDCTBlock performs after each failed attempt. -/
theorem writeBlockBlues_restore (img : Image) (bX bY : ℕ) (f : Fin 8 → Fin 8 → ℕ) :
    writeBlockBlues (writeBlockBlues img bX bY f) bX bY (blockBlues img bX bY) = img := by
  funext p
  by_cases hp : p.1 / 8 = bX ∧ p.2 / 8 = bY
  · obtain ⟨h1, h2⟩ := hp
    have e1 : bX * 8 + p.1 % 8 = p.1 := by omega
    have e2 : bY * 8 + p.2 % 8 = p.2 := by omega
    simp [writeBlockBlues, blockBlues, h1, h2, e1, e2]
  · simp [writeBlockBlues, hp]

/-- A successful attempt run ends in an image whose block decodes to the
embedded bit (the success branch is guarded by exactly that check). -/
theorem embedDCTAttempts_success (d : (Fin 8 → Fin 8 → ℕ) → ℕ)
    (n : ℤ → Fin 8 → Fin 8 → ℕ) (orig : Fin 8 → Fin 8 → ℕ) (bX bY bit : ℕ) :
    ∀ (l : List ℤ) (img imgOut : Image),
      embedDCTAttempts d n orig bX bY bit img l = (imgOut, true) →
      decodeDCTBlock d imgOut bX bY = bit := by
  intro l
  induction l with
  | nil =>
      intro img imgOut h
      simp [embedDCTAttempts] at h
  | cons q rest ih =>
      intro img imgOut h
      rw [embedDCTAttempts] at h
      split_ifs at h with hc
      · obtain ⟨h1, -⟩ := Prod.mk.injEq .. ▸ h
        exact h1 ▸ hc
      · exact ih _ _ h

/-- An attempt run only ever rewrites Blue samples of the addressed block. -/
theorem embedDCTAttempts_frame (d : (Fin 8 → Fin 8 → ℕ) → ℕ)
    (n : ℤ → Fin 8 → Fin 8 → ℕ) (orig : Fin 8 → Fin 8 → ℕ) (bX bY bit : ℕ) :
    ∀ (l : List ℤ) (img : Image),
      (∀ p, ¬(p.1 / 8 = bX ∧ p.2 / 8 = bY) →
         (embedDCTAttempts d n orig bX bY bit img l).1 p = img p) ∧
      (∀ p, ((embedDCTAttempts d n orig bX bY bit img l).1 p).r = (img p).r ∧
            ((embedDCTAttempts d n orig bX bY bit img l).1 p).g = (img p).g ∧
            ((embedDCTAttempts d n orig bX bY bit img l).1 p).a = (img p).a) := by
  intro l
  induction l with
  | nil => intro img; exact ⟨fun p _ => rfl, fun p => ⟨rfl, rfl, rfl⟩⟩
  | cons q rest ih =>
      intro img
      rw [embedDCTAttempts]
      split_ifs with hc
      · refine ⟨fun p hp => writeBlockBlues_outside _ _ _ _ _ hp,
                fun p => writeBlockBlues_rga _ _ _ _ _⟩
      · set img2 := writeBlockBlues (writeBlockBlues img bX bY (n q)) bX bY orig with himg2
        refine ⟨fun p hp => ?_, fun p => ?_⟩
        · rw [(ih img2).1 p hp, himg2, writeBlockBlues_outside _ _ _ _ _ hp,
              writeBlockBlues_outside _ _ _ _ _ hp]
        · obtain ⟨hr, hg, ha⟩ := (ih img2).2 p
          obtain ⟨hr2, hg2, ha2⟩ := writeBlockBlues_rga (writeBlockBlues img bX bY (n q)) bX bY orig p
          obtain ⟨hr3, hg3, ha3⟩ := writeBlockBlues_rga img bX bY (n q) p
          exact ⟨by rw [hr, himg2, hr2, hr3], by rw [hg, himg2, hg2, hg3],
                 by rw [ha, himg2, ha2, ha3]⟩

/-- When every attempt fails, the run reports failure with the image fully
restored to its input state. -/
theorem embedDCTAttempts_all_fail (d : (Fin 8 → Fin 8 → ℕ) → ℕ)
    (n : ℤ → Fin 8 → Fin 8 → ℕ) (img : Image) (bX bY bit : ℕ) :
    ∀ l : List ℤ,
      (∀ q ∈ l, decodeDCTBlock d (writeBlockBlues img bX bY (n q)) bX bY ≠ bit) →
      embedDCTAttempts d n (blockBlues img bX bY) bX bY bit img l = (img, false) := by
  intro l
  induction l with
  | nil => intro _; rfl
  | cons q rest ih =>
      intro hall
      rw [embedDCTAttempts, if_neg (hall q (List.mem_cons_self q rest)),
          writeBlockBlues_restore]
      exact ih (fun q' hq' => hall q' (List.mem_cons_of_mem q hq'))

/-- A failing run that starts from the original samples returns the input
image unchanged, whatever made the individual attempts fail. -/
theorem embedDCTAttempts_failure_id (d : (Fin 8 → Fin 8 → ℕ) → ℕ)
    (n : ℤ → Fin 8 → Fin 8 → ℕ) (img : Image) (bX bY bit : ℕ) :
    ∀ l : List ℤ,
      (embedDCTAttempts d n (blockBlues img bX bY) bX bY bit img l).2 = false →
      (embedDCTAttempts d n (blockBlues img bX bY) bX bY bit img l).1 = img := by
  intro l
  induction l with
  | nil => intro _; rfl
  | cons q rest ih =>
      rw [embedDCTAttempts]
      split_ifs with hc
      · intro h; exact absurd h (by simp)
      · rw [writeBlockBlues_restore]
        exact ih

/-! ## C2: DCT embed/decode self-consistency -/

/-- C2: for every 8x8 block, bit and abstract DCT pipeline, whenever
embedDCTBlock reports success the block of the returned image decodes to
the embedded bit under decodeDCTBlock; and when no quantization candidate
makes the bit decode correctly, embedDCTBlock reports failure, the error
that makes Conceal abort before the output image is written. -/
theorem embedDCTBlock_self_consistent (d : (Fin 8 → Fin 8 → ℕ) → ℕ)
    (n : ℤ → Fin 8 → Fin 8 → ℕ) (originalQ : ℤ) (img : Image) (bX bY bit : ℕ) :
    (∀ imgOut : Image,
       embedDCTBlock d n originalQ img bX bY bit = (imgOut, true) →
       decodeDCTBlock d imgOut bX bY = bit) ∧
    ((∀ q ∈ dctCandidates originalQ,
        decodeDCTBlock d (writeBlockBlues img bX bY (n q)) bX bY ≠ bit) →
      embedDCTBlock d n originalQ img bX bY bit = (img, false)) := by
  constructor
  · intro imgOut h
    exact embedDCTAttempts_success d n _ bX bY bit _ img imgOut h
  · intro hall
    exact embedDCTAttempts_all_fail d n img bX bY bit _ hall

/-- C2 witness: a concrete pipeline where the first candidate succeeds, and
one where every candidate fails. -/
theorem embedDCTBlock_self_consistent_witness :
    decodeDCTBlock (fun f => f 0 0 % 2)
      (embedDCTBlock (fun f => f 0 0 % 2) (fun q _ _ => q.toNat % 2) 1
        (fun _ => ⟨9, 9, 9, 9⟩) 0 1 1).1 0 1 = 1 ∧
    embedDCTBlock (fun _ => 0) (fun q _ _ => q.toNat % 2) 1
        (fun _ => ⟨9, 9, 9, 9⟩) 0 1 1 = ((fun _ => ⟨9, 9, 9, 9⟩ : Image), false) :=
  ⟨(embedDCTBlock_self_consistent (fun f => f 0 0 % 2) (fun q _ _ => q.toNat % 2) 1
      (fun _ => ⟨9, 9, 9, 9⟩) 0 1 1).1 _ rfl,
   (embedDCTBlock_self_consistent (fun _ => 0) (fun q _ _ => q.toNat % 2) 1
      (fun _ => ⟨9, 9, 9, 9⟩) 0 1 1).2 (fun q _ => by simp [decodeDCTBlock])⟩

/-! ## C10: frame effect of embedDCTBlock -/

/-- C10: embedDCTBlock modifies at most the Blue channel of the 64 pixels
of the addressed 8x8 block — R, G and A channels everywhere and every
pixel outside the block keep their original values — and when it reports
failure the returned image equals the input image exactly. -/
theorem embedDCTBlock_frame (d : (Fin 8 → Fin 8 → ℕ) → ℕ)
    (n : ℤ → Fin 8 → Fin 8 → ℕ) (originalQ : ℤ) (img : Image) (bX bY bit : ℕ) :
    (∀ p, ¬(p.1 / 8 = bX ∧ p.2 / 8 = bY) →
       (embedDCTBlock d n originalQ img bX bY bit).1 p = img p) ∧
    (∀ p, ((embedDCTBlock d n originalQ img bX bY bit).1 p).r = (img p).r ∧
          ((embedDCTBlock d n originalQ img bX bY bit).1 p).g = (img p).g ∧
          ((embedDCTBlock d n originalQ img bX bY bit).1 p).a = (img p).a) ∧
    ((embedDCTBlock d n originalQ img bX bY bit).2 = false →
       (embedDCTBlock d n originalQ img bX bY bit).1 = img) := by
  obtain ⟨hout, hrga⟩ :=
    embedDCTAttempts_frame d n (blockBlues img bX bY) bX bY bit
      (dctCandidates originalQ) img
  exact ⟨hout, hrga,
    embedDCTAttempts_failure_id d n img bX bY bit (dctCandidates originalQ)⟩

/-- C10 witness: the frame theorem applied to a concrete embed, evaluated
at a pixel outside the addressed block and at a channel inside it. -/
theorem embedDCTBlock_frame_witness :
    ((embedDCTBlock (fun f => f 0 0 % 2) (fun q _ _ => q.toNat % 2) 0
        (fun _ => ⟨3, 4, 5, 6⟩) 0 1 0).1 (0, 0)) = ⟨3, 4, 5, 6⟩ ∧
    ((embedDCTBlock (fun f => f 0 0 % 2) (fun q _ _ => q.toNat % 2) 0
        (fun _ => ⟨3, 4, 5, 6⟩) 0 1 0).1 (0, 8)).r = 3 :=
  ⟨(embedDCTBlock_frame (fun f => f 0 0 % 2) (fun q _ _ => q.toNat % 2) 0
      (fun _ => ⟨3, 4, 5, 6⟩) 0 1 0).1 (0, 0) (by decide),
   ((embedDCTBlock_frame (fun f => f 0 0 % 2) (fun q _ _ => q.toNat % 2) 0
      (fun _ => ⟨3, 4, 5, 6⟩) 0 1 0).2.1 (0, 8)).1⟩

/-! ## Analysis lemmas -/

/-- A left fold of additions over List.range is the Finset sum. -/
theorem foldl_add_eq_sum (f : ℕ → ℤ) (n : ℕ) (a : ℤ) :
    (List.range n).foldl (fun acc x => acc + f x) a = a + ∑ i ∈ Finset.range n, f i := by
  induction n generalizing a with
  | zero => simp
  | succ m ih =>
      rw [List.range_succ, List.foldl_append, ih, Finset.sum_range_succ]
      simp [List.foldl]
      ring

/-- The nested accumulation loop of Analyze computes the double sum of
squared R/G/B differences. -/
theorem analyzeSSE_eq_sum (img1 img2 : Image) (w h : ℕ) :
    analyzeSSE img1 img2 w h =
      ∑ x ∈ Finset.range w, ∑ y ∈ Finset.range h,
        pixelSqErr (img1 (x, y)) (img2 (x, y)) := by
  unfold analyzeSSE
  simp only [foldl_add_eq_sum]
  simp

/-! ## C8: Analyze's MSE, PSNR and heatmap -/

/-- C8: Analyze's MSE is the sum of squared R/G/B channel differences
(alpha excluded) divided by W·H·3; its PSNR is 10·log10(255²/MSE), which
is the top element (+∞) exactly as computed when the images are identical
(MSE = 0); and each heatmap pixel is opaque black when the R/G/B values
are unchanged and otherwise (intensity, 255 − intensity, 0, 255) with
intensity = min(255, 50·Σ|Δc|). -/
theorem analyze_spec (img1 img2 : Image) (w h : ℕ) :
    (analyzeMSE img1 img2 w h =
       ((∑ x ∈ Finset.range w, ∑ y ∈ Finset.range h,
           pixelSqErr (img1 (x, y)) (img2 (x, y)) : ℤ) : ℚ) / (w * h * 3)) ∧
    ((∀ p, img1 p = img2 p) →
       analyzeMSE img1 img2 w h = 0 ∧ analyzePSNR img1 img2 w h = ⊤ ∧
       ∀ p, analyzeHeatmap img1 img2 p = ⟨0, 0, 0, 255⟩) ∧
    (analyzeMSE img1 img2 w h ≠ 0 →
       analyzePSNR img1 img2 w h =
         ((10 * Real.logb 10 ((255 * 255 : ℝ) /
            ((analyzeMSE img1 img2 w h : ℚ) : ℝ))) : ℝ)) ∧
    (∀ p, (img1 p).r = (img2 p).r → (img1 p).g = (img2 p).g →
       (img1 p).b = (img2 p).b →
       analyzeHeatmap img1 img2 p = ⟨0, 0, 0, 255⟩) ∧
    (∀ p, ¬((img1 p).r = (img2 p).r ∧ (img1 p).g = (img2 p).g ∧
            (img1 p).b = (img2 p).b) →
       analyzeHeatmap img1 img2 p =
         ⟨min 255 (pixelAbsDiff (img1 p) (img2 p) * 50),
          255 - min 255 (pixelAbsDiff (img1 p) (img2 p) * 50), 0, 255⟩) := by
  refine ⟨?_, ?_, ?_, ?_, ?_⟩
  · rw [analyzeMSE, analyzeSSE_eq_sum]
  · intro hid
    have hsse : analyzeSSE img1 img2 w h = 0 := by
      rw [analyzeSSE_eq_sum]
      refine Finset.sum_eq_zero (fun x _ => Finset.sum_eq_zero (fun y _ => ?_))
      rw [hid (x, y)]
      simp [pixelSqErr]
    have hmse : analyzeMSE img1 img2 w h = 0 := by
      rw [analyzeMSE, hsse]
      simp
    refine ⟨hmse, ?_, ?_⟩
    · rw [analyzePSNR, if_pos hmse]
    · intro p
      simp [analyzeHeatmap, heatmapPixel, pixelModified, hid p]
  · intro hne
    rw [analyzePSNR, if_neg hne]
  · intro p h1 h2 h3
    simp [analyzeHeatmap, heatmapPixel, pixelModified, h1, h2, h3]
  · intro p hmod
    have hm : pixelModified (img1 p) (img2 p) = true := by
      simp only [pixelModified, decide_eq_true_eq]
      tauto
    simp [analyzeHeatmap, heatmapPixel, hm]

/-- C8 witness: identical constant images give MSE 0, PSNR +∞ and a black
heatmap pixel; a single bumped channel yields the green-shaded pixel. -/
theorem analyze_spec_witness :
    analyzeMSE (fun _ => ⟨1, 1, 1, 1⟩) (fun _ => ⟨1, 1, 1, 1⟩) 2 2 = 0 ∧
    analyzePSNR (fun _ => ⟨1, 1, 1, 1⟩) (fun _ => ⟨1, 1, 1, 1⟩) 2 2 = ⊤ ∧
    analyzeHeatmap (fun _ => ⟨1, 1, 1, 1⟩) (fun _ => ⟨2, 1, 1, 1⟩) (0, 0) =
      ⟨50, 205, 0, 255⟩ := by
  obtain ⟨hmse, hpsnr, hblack⟩ :=
    (analyze_spec (fun _ => ⟨1, 1, 1, 1⟩) (fun _ => ⟨1, 1, 1, 1⟩) 2 2).2.1
      (fun _ => rfl)
  refine ⟨hmse, hpsnr, ?_⟩
  exact ((analyze_spec (fun _ => ⟨1, 1, 1, 1⟩) (fun _ => ⟨2, 1, 1, 1⟩) 2 2).2.2.2.2
    (0, 0) (by decide)).trans (by decide)

/-! ## Random iterator lemmas -/

/-- Entries of the shuffle swap list: the suffix position is below n and the
drawn partner never exceeds it. -/
theorem shuffleSwapList_mem (n : ℕ) (rnd : ℕ → ℕ) (pr : ℕ × ℕ)
    (hpr : pr ∈ shuffleSwapList n rnd) : pr.1 < n ∧ pr.2 ≤ pr.1 := by
  unfold shuffleSwapList at hpr
  obtain ⟨i, hi, rfl⟩ := List.mem_map.mp hpr
  have hi' : i ∈ List.range n := List.mem_reverse.mp (List.dropLast_subset _ hi)
  refine ⟨List.mem_range.mp hi', ?_⟩
  exact Nat.lt_succ_iff.mp (Nat.mod_lt _ (Nat.succ_pos i))

/-- A fold of transpositions fixes any point distinct from every swapped
cell, provided the accumulated permutation fixes it. -/
theorem foldl_swaps_fix (l : List (ℕ × ℕ)) (acc : Equiv.Perm ℕ) (k : ℕ)
    (hacc : acc k = k)
    (hne : ∀ pr ∈ l, k ≠ 35 + pr.1 ∧ k ≠ 35 + pr.2) :
    (l.foldl (fun acc p => (Equiv.swap (35 + p.1) (35 + p.2)).trans acc) acc) k = k := by
  induction l generalizing acc with
  | nil => exact hacc
  | cons pr rest ih =>
      refine ih _ ?_ (fun pr' h' => hne pr' (List.mem_cons_of_mem _ h'))
      obtain ⟨h1, h2⟩ := hne pr (List.mem_cons_self pr rest)
      simp [Equiv.trans_apply, Equiv.swap_apply_of_ne_of_ne h1 h2, hacc]

/-- A fold of transpositions whose cells all lie below c maps points below
c to points below c. -/
theorem foldl_swaps_bound (l : List (ℕ × ℕ)) (acc : Equiv.Perm ℕ) (c : ℕ)
    (hacc : ∀ k, k < c → acc k < c)
    (hb : ∀ pr ∈ l, 35 + pr.1 < c ∧ 35 + pr.2 < c) :
    ∀ k, k < c →
      (l.foldl (fun acc p => (Equiv.swap (35 + p.1) (35 + p.2)).trans acc) acc) k < c := by
  induction l generalizing acc with
  | nil => exact hacc
  | cons pr rest ih =>
      refine ih _ ?_ (fun pr' h' => hb pr' (List.mem_cons_of_mem _ h'))
      intro k hk
      obtain ⟨h1, h2⟩ := hb pr (List.mem_cons_self pr rest)
      have hsw : Equiv.swap (35 + pr.1) (35 + pr.2) k < c := by
        rw [Equiv.swap_apply_def]
        split_ifs <;> omega
      exact hacc _ hsw

/-- The shuffled indices function fixes the 35 header positions. -/
theorem randomPerm_fix_low (count : ℕ) (rnd : ℕ → ℕ) (k : ℕ) (hk : k < 35) :
    randomPerm count rnd k = k := by
  unfold randomPerm
  split
  · exact foldl_swaps_fix _ _ k rfl (fun pr _ => by omega)
  · rfl

/-- The shuffled indices function fixes every position at or above count. -/
theorem randomPerm_fix_high (count : ℕ) (rnd : ℕ → ℕ) (k : ℕ) (hk : count ≤ k) :
    randomPerm count rnd k = k := by
  unfold randomPerm
  split
  · rename_i hcount
    refine foldl_swaps_fix _ _ k rfl (fun pr hpr => ?_)
    obtain ⟨h1, h2⟩ := shuffleSwapList_mem _ rnd pr hpr
    omega
  · rfl

/-- The shuffled indices function maps positions below count to positions
below count. -/
theorem randomPerm_bound (count : ℕ) (rnd : ℕ → ℕ) (k : ℕ) (hk : k < count) :
    randomPerm count rnd k < count := by
  unfold randomPerm
  split
  · rename_i hcount
    refine foldl_swaps_bound _ _ count (fun k hk => hk) (fun pr hpr => ?_) k hk
    obtain ⟨h1, h2⟩ := shuffleSwapList_mem _ rnd pr hpr
    omega
  · exact hk

/-- The inverse of the shuffled indices function also stays below count. -/
theorem randomPerm_symm_bound (count : ℕ) (rnd : ℕ → ℕ) (p : ℕ) (hp : p < count) :
    (randomPerm count rnd).symm p < count := by
  by_contra hge
  have hfix : randomPerm count rnd ((randomPerm count rnd).symm p) =
      (randomPerm count rnd).symm p :=
    randomPerm_fix_high count rnd _ (by omega)
  rw [Equiv.apply_symm_apply] at hfix
  omega

/-- Unfolding iterRun on a random iterator within bounds. -/
theorem iterRun_random (count w : ℕ) (idx : ℕ → ℕ) :
    ∀ (n cur : ℕ), cur + n ≤ count →
      iterRun n (.random count w idx cur) =
        (List.range' cur n).map (fun k => (idx k % w, idx k / w)) := by
  intro n
  induction n with
  | zero => intro cur _; rfl
  | succ m ih =>
      intro cur h
      have hcur : ¬ count ≤ cur := by omega
      simp only [iterRun, PixelIterator.next, if_neg hcur]
      rw [ih (cur + 1) (by omega)]
      rfl

/-- Advancing a random iterator n times within bounds moves the cursor by n. -/
theorem iterNexts_random (count w : ℕ) (idx : ℕ → ℕ) :
    ∀ (n cur : ℕ), cur + n ≤ count →
      iterNexts n (.random count w idx cur) = .random count w idx (cur + n) := by
  intro n
  induction n with
  | zero => intro cur _; rfl
  | succ m ih =>
      intro cur h
      have hcur : ¬ count ≤ cur := by omega
      simp only [iterNexts, PixelIterator.next, if_neg hcur]
      rw [ih (cur + 1) (by omega)]
      congr 1
      omega

/-! ## C6: the seeded-random iterator -/

/-- C6: for every geometry with W·H ≥ 35 and every draw sequence of the
seeded generator, the random iterator's first 35 outputs are pixel
positions 0..34 in row-major order; over W·H calls it yields pairwise
distinct, valid positions covering every pixel exactly once; it reports
end after W·H calls; and the whole sequence is a function of (W, H, draw
sequence) alone, hence identical on every run with the same seed. -/
theorem randomIterator_spec (w h : ℕ) (rnd : ℕ → ℕ) (h35 : 35 ≤ w * h) :
    (iterRun 35 (newRandomIterator w h rnd) =
       (List.range 35).map (fun k => (k % w, k / w))) ∧
    (iterRun (w * h) (newRandomIterator w h rnd)).Nodup ∧
    (∀ x y, x < w → y < h → (x, y) ∈ iterRun (w * h) (newRandomIterator w h rnd)) ∧
    (∀ q ∈ iterRun (w * h) (newRandomIterator w h rnd), q.1 < w ∧ q.2 < h) ∧
    (iterRun (w * h) (newRandomIterator w h rnd)).length = w * h ∧
    (iterNexts (w * h) (newRandomIterator w h rnd)).next = none ∧
    (∀ rnd' : ℕ → ℕ, (∀ i, rnd i = rnd' i) →
       iterRun (w * h) (newRandomIterator w h rnd) =
         iterRun (w * h) (newRandomIterator w h rnd')) := by
  have hw : 0 < w := by
    rcases Nat.eq_zero_or_pos w with h0 | h0
    · subst h0; simp at h35
    · exact h0
  have hh : 0 < h := by
    rcases Nat.eq_zero_or_pos h with h0 | h0
    · subst h0; simp at h35
    · exact h0
  have hnew : newRandomIterator w h rnd =
      PixelIterator.random (w * h) w (fun k => randomPerm (w * h) rnd k) 0 := rfl
  have houts : iterRun (w * h) (newRandomIterator w h rnd) =
      (List.range (w * h)).map
        (fun k => (randomPerm (w * h) rnd k % w, randomPerm (w * h) rnd k / w)) := by
    rw [hnew, iterRun_random _ _ _ _ 0 (by omega), ← List.range_eq_range']
  refine ⟨?_, ?_, ?_, ?_, ?_, ?_, ?_⟩
  · rw [hnew, iterRun_random _ _ _ 35 0 (by omega), ← List.range_eq_range']
    refine List.map_congr_left (fun k hk => ?_)
    rw [randomPerm_fix_low _ _ _ (List.mem_range.mp hk)]
  · rw [houts]
    refine List.Nodup.map ?_ (List.nodup_range _)
    intro a b hab
    simp only [Prod.mk.injEq] at hab
    obtain ⟨h1, h2⟩ := hab
    have e1 := Nat.div_add_mod (randomPerm (w * h) rnd a) w
    have e2 := Nat.div_add_mod (randomPerm (w * h) rnd b) w
    have hP : randomPerm (w * h) rnd a = randomPerm (w * h) rnd b := by
      rw [← e1, ← e2, h1, h2]
    exact (randomPerm (w * h) rnd).injective hP
  · intro x y hx hy
    have h1 : y * w + x < (y + 1) * w := by
      rw [add_mul, one_mul]; omega
    have h2 : (y + 1) * w ≤ h * w := Nat.mul_le_mul_right w (by omega)
    have hp : y * w + x < w * h := by rw [mul_comm w h]; omega
    rw [houts]
    refine List.mem_map.mpr ⟨(randomPerm (w * h) rnd).symm (y * w + x),
      List.mem_range.mpr (randomPerm_symm_bound _ _ _ hp), ?_⟩
    rw [Equiv.apply_symm_apply]
    have hx' : (y * w + x) % w = x := by
      rw [add_comm, Nat.add_mul_mod_self_right, Nat.mod_eq_of_lt hx]
    have hy' : (y * w + x) / w = y := by
      rw [add_comm, Nat.add_mul_div_right _ _ hw, Nat.div_eq_of_lt hx]
      omega
    simp [hx', hy']
  · intro q hq
    rw [houts] at hq
    obtain ⟨k, hk, rfl⟩ := List.mem_map.mp hq
    have hPk : randomPerm (w * h) rnd k < w * h :=
      randomPerm_bound _ _ _ (List.mem_range.mp hk)
    exact ⟨Nat.mod_lt _ hw, (Nat.div_lt_iff_lt_mul hw).mpr (by rw [mul_comm] at hPk ⊢; omega)⟩
  · rw [houts]; simp
  · rw [hnew, iterNexts_random _ _ _ _ 0 (by omega)]
    simp [PixelIterator.next]
  · intro rnd' heq
    have : rnd = rnd' := funext heq
    rw [this]

/-- C6 witness: the iterator theorem applied to a 6x6 image with the
constant-zero draw sequence. -/
theorem randomIterator_spec_witness :
    iterRun 35 (newRandomIterator 6 6 (fun _ => 0)) =
      (List.range 35).map (fun k => (k % 6, k / 6)) ∧
    ((0 : ℕ), (5 : ℕ)) ∈ iterRun 36 (newRandomIterator 6 6 (fun _ => 0)) :=
  ⟨(randomIterator_spec 6 6 (fun _ => 0) (by decide)).1,
   (randomIterator_spec 6 6 (fun _ => 0) (by decide)).2.2.1 0 5 (by decide) (by decide)⟩

end Hide
